import Mathlib

/-!
Verification of the speech-segment subtitle pipeline (`vad_transcribe.py`).

Times are milliseconds (or seconds, where the source uses seconds); the
Python floats are modelled as exact rationals `ℚ`.  Python's `sorted` with
`key=lambda x: x[0]` is a stable ascending sort by the first component;
`List.insertionSort` with the same key order is the canonical executable
stable sort, so the two agree extensionally on every input.
-/

/-- A detected interval `(start_ms, end_ms)` as handled by the merger. -/
abbrev Seg := ℚ × ℚ

/-- The sort key order used by `sorted(segments, key=lambda x: x[0])`. -/
def startLE (a b : Seg) : Prop := a.1 ≤ b.1

instance : DecidableRel startLE := fun a b => inferInstanceAs (Decidable (a.1 ≤ b.1))

instance : IsTotal Seg startLE := ⟨fun a b => le_total a.1 b.1⟩

instance : IsTrans Seg startLE := ⟨fun _ _ _ h h' => le_trans h h'⟩

/-- The `for i in range(1, len(segments))` loop of
`merge_speech_segments_from_tuples`: `acc` is the `merged_segments` list
built by `append`, `cur` the running `(current_start, current_end)` pair,
and the final `acc ++ [cur]` is the unconditional trailing append. -/
def mergeAccum (thr : ℚ) : List Seg → Seg → List Seg → List Seg
  | acc, cur, [] => acc ++ [cur]
  | acc, cur, nxt :: rest =>
    if nxt.1 - cur.2 < thr then mergeAccum thr acc (cur.1, max cur.2 nxt.2) rest
    else mergeAccum thr (acc ++ [cur]) nxt rest

/-- The merger `merge_speech_segments_from_tuples(segments, silence_threshold_sec)`:
sort by start, then sweep with threshold `silence_threshold_sec * 1000`.
An empty input returns `[]` before any sweep. -/
def merge_speech_segments_from_tuples (segments : List Seg)
    (silence_threshold_sec : ℚ) : List Seg :=
  match List.insertionSort startLE segments with
  | [] => []
  | first :: rest => mergeAccum (silence_threshold_sec * 1000) [] first rest

/-- The reference sweep, written from the spec's words (section 4.1): for
each next interval, if `next_start - current_end < gap_threshold_ms`
extend `current_end = max(current_end, next_end)`, otherwise flush the
running interval and start anew; flush the final running interval. -/
def sweepSpec (gap_threshold_ms : ℚ) : Seg → List Seg → List Seg
  | cur, [] => [cur]
  | cur, nxt :: rest =>
    if nxt.1 - cur.2 < gap_threshold_ms then
      sweepSpec gap_threshold_ms (cur.1, max cur.2 nxt.2) rest
    else cur :: sweepSpec gap_threshold_ms nxt rest

/-- The spec's merge contract: sort by `start_ms` ascending (stably), then
sweep with the given gap threshold in milliseconds. -/
def mergeSpec (intervals : List Seg) (gap_threshold_ms : ℚ) : List Seg :=
  match List.insertionSort startLE intervals with
  | [] => []
  | first :: rest => sweepSpec gap_threshold_ms first rest

/-- Padding step of `detect_continuous_speech_segments`: a raw detector
interval `(start_sec, end_sec)` becomes milliseconds, is expanded by
`speech_pad_ms` on both sides and clamped to `[0, audio_length_ms]`. -/
def padSegment (speech_pad_ms audio_length_ms : ℚ) (seg : ℚ × ℚ) : Seg :=
  (max 0 (seg.1 * 1000 - speech_pad_ms), min audio_length_ms (seg.2 * 1000 + speech_pad_ms))

/-- The pure tail of `detect_continuous_speech_segments`, from the raw
detector output onward: pad every raw interval, return `[]` when nothing
was detected, otherwise merge the padded intervals. -/
def detect_continuous_speech_segments (raw : List (ℚ × ℚ))
    (silence_threshold_sec speech_pad_ms audio_length_ms : ℚ) : List Seg :=
  let speech_segments := raw.map (padSegment speech_pad_ms audio_length_ms)
  if speech_segments.isEmpty then []
  else merge_speech_segments_from_tuples speech_segments silence_threshold_sec

/-- The accumulator-style loop equals the cons-style sweep. -/
theorem mergeAccum_eq_sweepSpec (thr : ℚ) :
    ∀ (l : List Seg) (acc : List Seg) (cur : Seg),
      mergeAccum thr acc cur l = acc ++ sweepSpec thr cur l := by
  intro l
  induction l with
  | nil => intro acc cur; simp [mergeAccum, sweepSpec]
  | cons nxt rest ih =>
    intro acc cur
    by_cases h : nxt.1 - cur.2 < thr
    · simp [mergeAccum, sweepSpec, h, ih]
    · simp [mergeAccum, sweepSpec, h, ih]

theorem merge_eq_mergeSpec (segments : List Seg) (t : ℚ) :
    merge_speech_segments_from_tuples segments t = mergeSpec segments (t * 1000) := by
  unfold merge_speech_segments_from_tuples mergeSpec
  cases List.insertionSort startLE segments with
  | nil => rfl
  | cons first rest => exact mergeAccum_eq_sweepSpec (t * 1000) rest [] first

/-- C1. The interval merger equals the reference sweep algorithm from
the spec (with the threshold converted from seconds to milliseconds):
same stable sort by start, same running-interval sweep with strict `<`
comparison against the gap threshold and `max` extension, flushing the
final running interval.  Empty input yields empty output, a singleton is
returned unchanged, and two intervals whose gap is exactly the threshold
(here `2001 - 1 = 2 * 1000`) are not merged. -/
theorem C1_merge_equals_reference_sweep :
    (∀ (segments : List Seg) (t : ℚ),
        merge_speech_segments_from_tuples segments t = mergeSpec segments (t * 1000))
    ∧ (∀ t : ℚ, merge_speech_segments_from_tuples [] t = [])
    ∧ (∀ (p : Seg) (t : ℚ), merge_speech_segments_from_tuples [p] t = [p])
    ∧ merge_speech_segments_from_tuples [(0, 1), (2001, 3000)] 2 = [(0, 1), (2001, 3000)] := by
  refine ⟨merge_eq_mergeSpec, ?_, ?_, ?_⟩
  · intro t; rfl
  · intro p t
    simp [merge_speech_segments_from_tuples, List.insertionSort, mergeAccum]
  · have hlt : ¬ ((2001 : ℚ) - 1 < 2 * 1000) := by norm_num
    simp [merge_speech_segments_from_tuples, List.insertionSort, List.orderedInsert,
      startLE, mergeAccum, hlt]

/-- Every start in the sweep output is the running start or one of the
pending intervals' starts. -/
theorem sweepSpec_start_mem (thr : ℚ) :
    ∀ (l : List Seg) (cur : Seg) (p : Seg), p ∈ sweepSpec thr cur l →
      p.1 = cur.1 ∨ ∃ q ∈ l, p.1 = q.1 := by
  intro l
  induction l with
  | nil =>
    intro cur p hp
    simp [sweepSpec] at hp
    simp [hp]
  | cons nxt rest ih =>
    intro cur p hp
    by_cases h : nxt.1 - cur.2 < thr
    · simp only [sweepSpec, if_pos h] at hp
      rcases ih _ p hp with h1 | ⟨q, hq, hq1⟩
      · exact Or.inl h1
      · exact Or.inr ⟨q, List.mem_cons_of_mem _ hq, hq1⟩
    · simp only [sweepSpec, if_neg h] at hp
      rcases List.mem_cons.mp hp with rfl | hp
      · exact Or.inl rfl
      · rcases ih _ p hp with h1 | ⟨q, hq, hq1⟩
        · exact Or.inr ⟨nxt, List.mem_cons_self _ _, h1⟩
        · exact Or.inr ⟨q, List.mem_cons_of_mem _ hq, hq1⟩

/-- The sweep output starts with the running start. -/
theorem sweepSpec_head (thr : ℚ) :
    ∀ (l : List Seg) (cur : Seg), ∃ e out,
      sweepSpec thr cur l = (cur.1, e) :: out := by
  intro l
  induction l with
  | nil => intro cur; exact ⟨cur.2, [], rfl⟩
  | cons nxt rest ih =>
    intro cur
    by_cases h : nxt.1 - cur.2 < thr
    · obtain ⟨e, out, heq⟩ := ih (cur.1, max cur.2 nxt.2)
      exact ⟨e, out, by simp only [sweepSpec, if_pos h]; exact heq⟩
    · exact ⟨cur.2, sweepSpec thr nxt rest, by simp only [sweepSpec, if_neg h]⟩

/-- Sweeping preserves sortedness by start. -/
theorem sweepSpec_pairwise (thr : ℚ) :
    ∀ (l : List Seg) (cur : Seg), (cur :: l).Pairwise startLE →
      (sweepSpec thr cur l).Pairwise startLE := by
  intro l
  induction l with
  | nil => intro cur _; simp [sweepSpec]
  | cons nxt rest ih =>
    intro cur hp
    rw [List.pairwise_cons] at hp
    obtain ⟨hcur, hrest⟩ := hp
    rw [List.pairwise_cons] at hrest
    obtain ⟨hnxt, hrest'⟩ := hrest
    by_cases h : nxt.1 - cur.2 < thr
    · simp only [sweepSpec, if_pos h]
      refine ih (cur.1, max cur.2 nxt.2) ?_
      rw [List.pairwise_cons]
      refine ⟨fun q hq => ?_, hrest'⟩
      exact hcur q (List.mem_cons_of_mem _ hq)
    · simp only [sweepSpec, if_neg h]
      rw [List.pairwise_cons]
      refine ⟨fun p hp => ?_, ih nxt (List.pairwise_cons.mpr ⟨hnxt, hrest'⟩)⟩
      rcases sweepSpec_start_mem thr rest nxt p hp with h1 | ⟨q, hq, hq1⟩
      · show cur.1 ≤ p.1
        rw [h1]
        exact hcur nxt (List.mem_cons_self _ _)
      · show cur.1 ≤ p.1
        rw [hq1]
        exact hcur q (List.mem_cons_of_mem _ hq)

/-- Consecutive intervals in the sweep output are separated by at least
the threshold. -/
theorem sweepSpec_chain (thr : ℚ) :
    ∀ (l : List Seg) (cur : Seg),
      (sweepSpec thr cur l).Chain' (fun p q => thr ≤ q.1 - p.2) := by
  intro l
  induction l with
  | nil => intro cur; simp [sweepSpec]
  | cons nxt rest ih =>
    intro cur
    by_cases h : nxt.1 - cur.2 < thr
    · simp only [sweepSpec, if_pos h]; exact ih _
    · simp only [sweepSpec, if_neg h]
      obtain ⟨e, out, heq⟩ := sweepSpec_head thr rest nxt
      rw [heq, List.chain'_cons]
      exact ⟨by simpa using not_lt.mp h, heq ▸ ih nxt⟩

/-- Sweeping a list whose consecutive intervals are already separated by
at least the threshold changes nothing. -/
theorem sweepSpec_of_separated (thr : ℚ) :
    ∀ (l : List Seg) (a : Seg),
      (a :: l).Chain' (fun p q => thr ≤ q.1 - p.2) →
      sweepSpec thr a l = a :: l := by
  intro l
  induction l with
  | nil => intro a _; rfl
  | cons nxt rest ih =>
    intro a hc
    rw [List.chain'_cons] at hc
    have hnot : ¬ (nxt.1 - a.2 < thr) := not_lt.mpr hc.1
    simp only [sweepSpec, if_neg hnot]
    rw [ih nxt hc.2]

/-- The merger's output is sorted by start. -/
theorem merge_pairwise_startLE (segs : List Seg) (t : ℚ) :
    (merge_speech_segments_from_tuples segs t).Pairwise startLE := by
  unfold merge_speech_segments_from_tuples
  have hs := List.sorted_insertionSort startLE segs
  cases h : List.insertionSort startLE segs with
  | nil => simp
  | cons first rest =>
    rw [h] at hs
    show List.Pairwise startLE (mergeAccum (t * 1000) [] first rest)
    rw [mergeAccum_eq_sweepSpec, List.nil_append]
    exact sweepSpec_pairwise (t * 1000) rest first hs

/-- Consecutive intervals in the merger's output are separated by at
least the millisecond threshold. -/
theorem merge_chain_sep (segs : List Seg) (t : ℚ) :
    (merge_speech_segments_from_tuples segs t).Chain'
      (fun p q => t * 1000 ≤ q.1 - p.2) := by
  unfold merge_speech_segments_from_tuples
  cases h : List.insertionSort startLE segs with
  | nil => simp
  | cons first rest =>
    show List.Chain' _ (mergeAccum (t * 1000) [] first rest)
    rw [mergeAccum_eq_sweepSpec, List.nil_append]
    exact sweepSpec_chain (t * 1000) rest first

/-- A list that is sorted by start and whose consecutive intervals are
separated by at least the threshold is a fixed point of the merger. -/
theorem merge_fixed_of_sorted_sep (t : ℚ) (M : List Seg)
    (hsorted : M.Pairwise startLE)
    (hchain : M.Chain' (fun p q => t * 1000 ≤ q.1 - p.2)) :
    merge_speech_segments_from_tuples M t = M := by
  unfold merge_speech_segments_from_tuples
  rw [List.Sorted.insertionSort_eq hsorted]
  cases M with
  | nil => rfl
  | cons m mr =>
    show mergeAccum (t * 1000) [] m mr = m :: mr
    rw [mergeAccum_eq_sweepSpec, List.nil_append]
    exact sweepSpec_of_separated (t * 1000) mr m hchain

/-- C6. The merge operation is idempotent: re-merging an already
merged interval list with the same threshold returns it unchanged. -/
theorem C6_merge_idempotent (segs : List Seg) (t : ℚ) :
    merge_speech_segments_from_tuples (merge_speech_segments_from_tuples segs t) t
      = merge_speech_segments_from_tuples segs t :=
  merge_fixed_of_sorted_sep t _ (merge_pairwise_startLE segs t) (merge_chain_sep segs t)

/-- Membership of the point `x` in one of the intervals of `l` (half-open in time). -/
def covers (l : List Seg) (x : ℚ) : Prop := ∃ p ∈ l, p.1 ≤ x ∧ x < p.2

/-- Two intervals overlap when they share an interior point. -/
def segOverlaps (p q : Seg) : Prop := max p.1 q.1 < min p.2 q.2

/-- A point inside the running interval or a pending interval stays
covered by the sweep output (the pending list being sorted by start). -/
theorem sweepSpec_covers (thr : ℚ) :
    ∀ (l : List Seg) (cur : Seg), (cur :: l).Pairwise startLE →
      ∀ p, (p = cur ∨ p ∈ l) → ∀ x, p.1 ≤ x → x < p.2 →
        covers (sweepSpec thr cur l) x := by
  intro l
  induction l with
  | nil =>
    intro cur _ p hmem x hx1 hx2
    rcases hmem with heq | hmem
    · rw [heq] at hx1 hx2
      exact ⟨cur, List.mem_singleton.mpr rfl, hx1, hx2⟩
    · simp at hmem
  | cons nxt rest ih =>
    intro cur hp p hmem x hx1 hx2
    rw [List.pairwise_cons] at hp
    obtain ⟨hcur, hrest⟩ := hp
    rw [List.pairwise_cons] at hrest
    obtain ⟨hnxt, hrest'⟩ := hrest
    by_cases h : nxt.1 - cur.2 < thr
    · simp only [sweepSpec, if_pos h]
      have hp' : ((cur.1, max cur.2 nxt.2) :: rest).Pairwise startLE := by
        rw [List.pairwise_cons]
        exact ⟨fun q hq => hcur q (List.mem_cons_of_mem _ hq), hrest'⟩
      rcases hmem with heq | hmem
      · rw [heq] at hx1 hx2
        exact ih (cur.1, max cur.2 nxt.2) hp' _ (Or.inl rfl) x hx1
          (lt_of_lt_of_le hx2 (le_max_left _ _))
      · rcases List.mem_cons.mp hmem with heq | hmem'
        · rw [heq] at hx1 hx2
          exact ih (cur.1, max cur.2 nxt.2) hp' _ (Or.inl rfl) x
            (le_trans (hcur nxt (List.mem_cons_self _ _)) hx1)
            (lt_of_lt_of_le hx2 (le_max_right _ _))
        · exact ih (cur.1, max cur.2 nxt.2) hp' p (Or.inr hmem') x hx1 hx2
    · simp only [sweepSpec, if_neg h]
      rcases hmem with heq | hmem
      · rw [heq] at hx1 hx2
        exact ⟨cur, List.mem_cons_self _ _, hx1, hx2⟩
      · obtain ⟨q, hq, hq1, hq2⟩ :=
          ih nxt (List.pairwise_cons.mpr ⟨hnxt, hrest'⟩) p (by
            rcases List.mem_cons.mp hmem with rfl | hm
            · exact Or.inl rfl
            · exact Or.inr hm) x hx1 hx2
        exact ⟨q, List.mem_cons_of_mem _ hq, hq1, hq2⟩

/-- In a list sorted by start whose consecutive intervals are separated,
every earlier interval ends before every later one starts. -/
theorem chain_sep_to_pairwise :
    ∀ l : List Seg, l.Chain' (fun p q => p.2 ≤ q.1) → l.Pairwise startLE →
      l.Pairwise (fun p q => p.2 ≤ q.1) := by
  intro l
  induction l with
  | nil => intro _ _; exact List.Pairwise.nil
  | cons a rest ih =>
    intro hc hp
    rw [List.pairwise_cons] at hp
    rw [List.pairwise_cons]
    refine ⟨?_, ih hc.tail hp.2⟩
    intro q hq
    cases rest with
    | nil => simp at hq
    | cons b rest' =>
      rw [List.chain'_cons] at hc
      rcases List.mem_cons.mp hq with rfl | hq'
      · exact hc.1
      · have hb : b.1 ≤ q.1 := (List.pairwise_cons.mp hp.2).1 q hq'
        exact le_trans hc.1 hb

/-- Counterexample to claim C7 as stated: with a negative gap threshold
the condition `next_start - current_end < threshold_ms` can reject a
merge of two overlapping intervals, so the output overlaps itself:
`merge [(0,10),(2,3)] (-1)` returns `[(0,10),(2,3)]`, and `(0,10)`
overlaps `(2,3)`. -/
theorem C7_overlap_counterexample :
    ¬ ((merge_speech_segments_from_tuples [(0, 10), (2, 3)] (-1)).Pairwise
        (fun p q => ¬ segOverlaps p q)) := by
  have h1 : merge_speech_segments_from_tuples [(0, 10), (2, 3)] (-1) = [(0, 10), (2, 3)] := by
    norm_num [merge_speech_segments_from_tuples, List.insertionSort, List.orderedInsert,
      startLE, mergeAccum]
  rw [h1]
  intro hpw
  rw [List.pairwise_cons] at hpw
  refine hpw.1 (2, 3) (List.mem_singleton.mpr rfl) ?_
  unfold segOverlaps
  norm_num

/-- C7 (amended). Merging never shrinks covered time: every point
inside an input interval is inside an output interval, for every gap
threshold.  And for every *nonnegative* gap threshold the output
intervals never overlap each other (the original claim's unrestricted
quantification over thresholds fails, see the counterexample). -/
theorem C7_coverage_and_disjointness :
    (∀ (segs : List Seg) (t x : ℚ) (p : Seg), p ∈ segs → p.1 ≤ x → x < p.2 →
        covers (merge_speech_segments_from_tuples segs t) x)
    ∧ (∀ (segs : List Seg) (t : ℚ), 0 ≤ t →
        (merge_speech_segments_from_tuples segs t).Pairwise
          (fun p q => ¬ segOverlaps p q)) := by
  constructor
  · intro segs t x p hmem hx1 hx2
    have hmem' : p ∈ List.insertionSort startLE segs :=
      (List.mem_insertionSort startLE).mpr hmem
    have hs := List.sorted_insertionSort startLE segs
    unfold merge_speech_segments_from_tuples
    cases h : List.insertionSort startLE segs with
    | nil => rw [h] at hmem'; simp at hmem'
    | cons first rest =>
      rw [h] at hmem' hs
      show covers (mergeAccum (t * 1000) [] first rest) x
      rw [mergeAccum_eq_sweepSpec, List.nil_append]
      refine sweepSpec_covers (t * 1000) rest first hs p ?_ x hx1 hx2
      rcases List.mem_cons.mp hmem' with rfl | hm
      · exact Or.inl rfl
      · exact Or.inr hm
  · intro segs t ht
    have hchain := merge_chain_sep segs t
    have hsorted := merge_pairwise_startLE segs t
    have hsep : (merge_speech_segments_from_tuples segs t).Chain'
        (fun p q => p.2 ≤ q.1) := by
      refine hchain.imp ?_
      intro p q hpq
      have h0 : (0 : ℚ) ≤ t * 1000 := by positivity
      linarith
    have hpw := chain_sep_to_pairwise _ hsep hsorted
    refine hpw.imp ?_
    intro p q hpq
    unfold segOverlaps
    intro hover
    have h1 : min p.2 q.2 ≤ p.2 := min_le_left _ _
    have h2 : q.1 ≤ max p.1 q.1 := le_max_right _ _
    linarith

/-- C8. The detector tail pads every raw interval independently by
`speech_pad_ms` on both sides, clamped to `[0, audio_length_ms]` — so a
padded start is never negative and a padded end never exceeds the audio
length — and then hands the padded list to the merger (pad-then-merge
order, so padding-induced overlap is subject to the merge rule). -/
theorem C8_padding_clamped_before_merge :
    (∀ (raw : List (ℚ × ℚ)) (t pad len : ℚ),
        detect_continuous_speech_segments raw t pad len =
          merge_speech_segments_from_tuples (raw.map (padSegment pad len)) t)
    ∧ (∀ (raw : List (ℚ × ℚ)) (pad len : ℚ) (p : Seg),
        p ∈ raw.map (padSegment pad len) → 0 ≤ p.1 ∧ p.2 ≤ len) := by
  constructor
  · intro raw t pad len
    cases raw with
    | nil => rfl
    | cons a l => simp [detect_continuous_speech_segments]
  · intro raw pad len p hp
    rw [List.mem_map] at hp
    obtain ⟨x, _, rfl⟩ := hp
    exact ⟨le_max_left _ _, min_le_left _ _⟩

/-- Witness for C8 at a concrete padded interval. -/
theorem C8_padding_clamped_before_merge_witness :
    0 ≤ (padSegment 300 10000 ((1 : ℚ), (2 : ℚ))).1
      ∧ (padSegment 300 10000 ((1 : ℚ), (2 : ℚ))).2 ≤ 10000 :=
  C8_padding_clamped_before_merge.2 [((1 : ℚ), (2 : ℚ))] 300 10000 _ (by simp)

/-- One entry of a Whisper transcript (`whisper_result['segments']`): the
JSON keys `start`/`end` hold seconds relative to the slice start, `text`
the recognised text. -/
structure TranscriptEntry where
  start_sec : ℚ
  end_sec : ℚ
  text : String
deriving DecidableEq

/-- A transcript: the `segments` list of a Whisper result. -/
abbrev Transcript := List TranscriptEntry

/-- One element of the driver's `all_segments` list: the dict
`{segment_index, segment_start_ms, segment_end_ms, whisper_result}`. -/
structure SegOutcome where
  segment_index : ℕ
  segment_start_ms : ℚ
  segment_end_ms : ℚ
  whisper_result : Transcript
deriving DecidableEq

/-- One SRT cue: index, global times in milliseconds, text. -/
structure SubtitleCue where
  index : ℕ
  start_ms : ℚ
  end_ms : ℚ
  text : String
deriving DecidableEq

/-- Python's `str.strip()` (whitespace removal on both ends), written
structurally over the character list so it is executable by the kernel. -/
def pyStrip (s : String) : String :=
  String.mk (((s.data.dropWhile Char.isWhitespace).reverse.dropWhile Char.isWhitespace).reverse)

/-- Python's `f"{n:02d}"` / `f"{n:03d}"` zero padding (the values
formatted by the source are nonnegative, where this agrees with
Python's sign-aware padding). -/
def padZero (w : ℕ) (n : ℤ) : String :=
  let s := toString n
  String.mk (List.replicate (w - s.length) '0') ++ s

/-- Time formatting `milliseconds_to_srt_time(ms)`: `//` on nonnegative floats is
`Int.floor` of the exact quotient, `%=` keeps `ms - d * (ms // d)`, and
the final `int(ms % 1000)` truncates a nonnegative remainder, i.e.
floors it. -/
def milliseconds_to_srt_time (ms : ℚ) : String :=
  let hours : ℤ := ⌊ms / 3600000⌋
  let ms1 : ℚ := ms - 3600000 * hours
  let minutes : ℤ := ⌊ms1 / 60000⌋
  let ms2 : ℚ := ms1 - 60000 * minutes
  let seconds : ℤ := ⌊ms2 / 1000⌋
  let milliseconds : ℤ := ⌊ms2 - 1000 * seconds⌋
  padZero 2 hours ++ ":" ++ padZero 2 minutes ++ ":" ++ padZero 2 seconds ++ ","
    ++ padZero 3 milliseconds

/-- The inner `for segment in whisper_result.get('segments', [])` loop of
`generate_srt`, returning the cues it emits and the next value of
`subtitle_index`: an entry yields a cue exactly when its stripped text is
non-empty, with global times `segment_start_ms + start_sec * 1000` and
`segment_start_ms + end_sec * 1000`. -/
def cuesOfEntries (base : ℚ) : ℕ → Transcript → List SubtitleCue × ℕ
  | idx, [] => ([], idx)
  | idx, e :: rest =>
    if pyStrip e.text = "" then cuesOfEntries base idx rest
    else
      let next := cuesOfEntries base (idx + 1) rest
      (⟨idx, base + e.start_sec * 1000, base + e.end_sec * 1000, pyStrip e.text⟩ :: next.1,
        next.2)

/-- The outer `for seg_info in all_segments` loop of `generate_srt`,
threading `subtitle_index` across segments. -/
def generate_srt_cues : ℕ → List SegOutcome → List SubtitleCue
  | _, [] => []
  | idx, s :: rest =>
    let r := cuesOfEntries s.segment_start_ms idx s.whisper_result
    r.1 ++ generate_srt_cues r.2 rest

/-- The four `f.write` calls of one loop iteration of `generate_srt`:
index line, timing line, text line, blank separator line. -/
def srtBlock (c : SubtitleCue) : String :=
  toString c.index ++ "\n" ++ milliseconds_to_srt_time c.start_ms ++ " --> "
    ++ milliseconds_to_srt_time c.end_ms ++ "\n" ++ c.text ++ "\n\n"

/-- The writer `generate_srt(all_segments, output_file)`: the full text written to
the output file, starting from `subtitle_index = 1`. -/
def generate_srt (all_segments : List SegOutcome) : String :=
  String.join ((generate_srt_cues 1 all_segments).map srtBlock)

/-- The entries that yield cues, in emission order, each paired with its
segment's start offset. -/
def emittedEntries (segs : List SegOutcome) : List (ℚ × TranscriptEntry) :=
  segs.flatMap (fun s =>
    (s.whisper_result.filter (fun e => ¬ (pyStrip e.text = ""))).map
      (fun e => (s.segment_start_ms, e)))

/-- Spec-side two-digit zero-padded decimal rendering. -/
def twoDigit (n : ℕ) : String :=
  if n < 10 then "0" ++ toString n else toString n

/-- Spec-side three-digit zero-padded decimal rendering. -/
def threeDigit (n : ℕ) : String :=
  if n < 10 then "00" ++ toString n
  else if n < 100 then "0" ++ toString n
  else toString n


/-- Appending adjacent unit-step ranges. -/
theorem range'_append_one (s a b : ℕ) :
    List.range' s a ++ List.range' (s + a) b = List.range' s (a + b) := by
  have := List.range'_append s a b 1
  rw [one_mul] at this
  rw [this, Nat.add_comm b a]

/-- The inner loop numbers its cues consecutively from `idx` and returns
`idx` advanced by the number of cues it emitted. -/
theorem cuesOfEntries_indices (base : ℚ) :
    ∀ (es : Transcript) (idx : ℕ),
      (cuesOfEntries base idx es).1.map (fun c => c.index)
          = List.range' idx (cuesOfEntries base idx es).1.length
        ∧ (cuesOfEntries base idx es).2 = idx + (cuesOfEntries base idx es).1.length := by
  intro es
  induction es with
  | nil => intro idx; simp [cuesOfEntries]
  | cons e rest ih =>
    intro idx
    by_cases h : pyStrip e.text = ""
    · simpa [cuesOfEntries, h] using ih idx
    · obtain ⟨ih1, ih2⟩ := ih (idx + 1)
      simp only [cuesOfEntries, if_neg h, List.map_cons, List.length_cons]
      constructor
      · rw [List.range'_succ idx _ 1, ih1]
      · rw [ih2]
        omega

/-- The inner loop's cue payloads, in order, are exactly the per-entry
time translations of the non-empty entries. -/
theorem cuesOfEntries_payload (base : ℚ) :
    ∀ (es : Transcript) (idx : ℕ),
      (cuesOfEntries base idx es).1.map (fun c => (c.start_ms, c.end_ms, c.text))
        = (es.filter (fun e => ¬ (pyStrip e.text = ""))).map
            (fun e => (base + e.start_sec * 1000, base + e.end_sec * 1000, pyStrip e.text)) := by
  intro es
  induction es with
  | nil => intro idx; simp [cuesOfEntries]
  | cons e rest ih =>
    intro idx
    by_cases h : pyStrip e.text = ""
    · simp [cuesOfEntries, h, List.filter_cons, ih idx]
    · simp [cuesOfEntries, h, List.filter_cons, ih (idx + 1)]

/-- Across segments, cue indices are consecutive from the initial index. -/
theorem generate_srt_cues_indices :
    ∀ (segs : List SegOutcome) (idx : ℕ),
      (generate_srt_cues idx segs).map (fun c => c.index)
        = List.range' idx (generate_srt_cues idx segs).length := by
  intro segs
  induction segs with
  | nil => intro idx; simp [generate_srt_cues]
  | cons s rest ih =>
    intro idx
    obtain ⟨h1, h2⟩ := cuesOfEntries_indices s.segment_start_ms s.whisper_result idx
    simp only [generate_srt_cues, List.map_append, List.length_append]
    rw [h1, ih, h2, range'_append_one]

/-- Across segments, cue payloads are the time translations of the
emitted entries, in emission order. -/
theorem generate_srt_cues_payload :
    ∀ (segs : List SegOutcome) (idx : ℕ),
      (generate_srt_cues idx segs).map (fun c => (c.start_ms, c.end_ms, c.text))
        = (emittedEntries segs).map
            (fun p => (p.1 + p.2.start_sec * 1000, p.1 + p.2.end_sec * 1000, pyStrip p.2.text)) := by
  intro segs
  induction segs with
  | nil => intro idx; simp [generate_srt_cues, emittedEntries]
  | cons s rest ih =>
    intro idx
    simp only [generate_srt_cues, emittedEntries, List.flatMap_cons, List.map_append,
      List.map_map]
    rw [cuesOfEntries_payload, ih]
    rfl

/-- A single-segment run: start offset 10000 ms, one entry 1.5 s – 2.0 s
saying "hi" becomes the single cue 11500 ms – 12000 ms. -/
theorem example_single_cue :
    generate_srt_cues 1 [⟨0, 10000, 20000, [⟨1.5, 2, "hi"⟩]⟩]
      = [⟨1, 11500, 12000, "hi"⟩] := by
  have h : pyStrip "hi" = "hi" := by decide
  have h1 : (10000 : ℚ) + 1.5 * 1000 = 11500 := by norm_num
  have h2 : (10000 : ℚ) + 2 * 1000 = 12000 := by norm_num
  simp [generate_srt_cues, cuesOfEntries, h, h1, h2]

/-- C4. Every emitted cue's global times are the segment's start
offset plus the entry's second-level times scaled by 1000: the cue
payloads, in order, equal the per-entry translations
`(start_ms + start_sec * 1000, start_ms + end_sec * 1000, stripped text)`
over the non-empty entries; in particular a segment with
`start_ms = 10000` and entry `{start_sec: 1.5, end_sec: 2.0, text: "hi"}`
yields the cue `(11500, 12000, "hi")`. -/
theorem C4_cue_time_translation :
    (∀ (segs : List SegOutcome) (idx : ℕ),
        (generate_srt_cues idx segs).map (fun c => (c.start_ms, c.end_ms, c.text))
          = (emittedEntries segs).map
              (fun p => (p.1 + p.2.start_sec * 1000, p.1 + p.2.end_sec * 1000,
                pyStrip p.2.text)))
    ∧ generate_srt_cues 1 [⟨0, 10000, 20000, [⟨1.5, 2, "hi"⟩]⟩]
        = [⟨1, 11500, 12000, "hi"⟩] :=
  ⟨generate_srt_cues_payload, example_single_cue⟩

/-- The three-segment run used by the spec's cue-numbering test case:
segments produce 2, 0 and 3 non-empty entries respectively. -/
def exampleSegs : List SegOutcome :=
  [⟨0, 0, 4000, [⟨1, 2, "a"⟩, ⟨3, 4, "b"⟩]⟩,
   ⟨1, 5000, 6000, [⟨0, 1, " "⟩]⟩,
   ⟨2, 20000, 30000, [⟨0.5, 1, "c"⟩, ⟨2, 3, "d"⟩, ⟨4, 5, "e"⟩]⟩]

/-- C5. Exactly one cue per non-empty (after stripping) transcript
entry, numbered consecutively from 1 with no gaps, in segment order and
entry order within a segment; the `[2, 0, 3]` run yields cues numbered
1..5, the third cue being the first entry of the third segment
(`20500 – 21000, "c"`). -/
theorem C5_cue_numbering :
    (∀ segs : List SegOutcome,
        (generate_srt_cues 1 segs).map (fun c => c.index)
            = List.range' 1 (generate_srt_cues 1 segs).length
          ∧ (generate_srt_cues 1 segs).length = (emittedEntries segs).length)
    ∧ generate_srt_cues 1 exampleSegs
        = [⟨1, 1000, 2000, "a"⟩, ⟨2, 3000, 4000, "b"⟩, ⟨3, 20500, 21000, "c"⟩,
           ⟨4, 22000, 23000, "d"⟩, ⟨5, 24000, 25000, "e"⟩] := by
  constructor
  · intro segs
    refine ⟨generate_srt_cues_indices segs 1, ?_⟩
    have h := generate_srt_cues_payload segs 1
    have := congrArg List.length h
    simpa using this
  · have ha : pyStrip "a" = "a" := by decide
    have hb : pyStrip "b" = "b" := by decide
    have hc : pyStrip "c" = "c" := by decide
    have hd : pyStrip "d" = "d" := by decide
    have he : pyStrip "e" = "e" := by decide
    have hsp : pyStrip " " = "" := by decide
    simp [exampleSegs, generate_srt_cues, cuesOfEntries, ha, hb, hc, hd, he, hsp]
    norm_num

/-- Floor of `(d * k + r) / d` is `k` when `0 ≤ r < d`. -/
theorem floor_mul_add_div (d : ℚ) (hd : 0 < d) (k : ℕ) (r : ℚ)
    (h0 : 0 ≤ r) (hr : r < d) : ⌊(d * (k : ℚ) + r) / d⌋ = (k : ℤ) := by
  rw [Int.floor_eq_iff]
  constructor
  · rw [le_div_iff₀ hd]
    push_cast
    nlinarith
  · rw [div_lt_iff₀ hd]
    push_cast
    nlinarith

/-- Python's `{:02d}` agrees with the spec's two-digit zero padding below
100. -/
theorem padZero_two_eq : ∀ n : ℕ, n < 100 → padZero 2 (n : ℤ) = twoDigit n := by decide

set_option maxRecDepth 4000 in
/-- Python's `{:03d}` agrees with the spec's three-digit zero padding
below 1000. -/
theorem padZero_three_eq : ∀ n : ℕ, n < 1000 → padZero 3 (n : ℤ) = threeDigit n := by decide

/-- On a decomposed time below 100 hours, `milliseconds_to_srt_time`
renders exactly the zero-padded `HH:MM:SS,mmm` digit groups. -/
theorem srt_time_digits (h m s mm : ℕ) (hh : h < 100) (hm : m < 60) (hs : s < 60)
    (hmm : mm < 1000) :
    milliseconds_to_srt_time ((3600000 * h + 60000 * m + 1000 * s + mm : ℕ) : ℚ)
      = twoDigit h ++ ":" ++ twoDigit m ++ ":" ++ twoDigit s ++ "," ++ threeDigit mm := by
  have hmq : (m : ℚ) ≤ 59 := by exact_mod_cast Nat.le_of_lt_succ hm
  have hsq : (s : ℚ) ≤ 59 := by exact_mod_cast Nat.le_of_lt_succ hs
  have hmmq : (mm : ℚ) ≤ 999 := by exact_mod_cast Nat.le_of_lt_succ hmm
  have hm0 : (0 : ℚ) ≤ (m : ℚ) := Nat.cast_nonneg m
  have hs0 : (0 : ℚ) ≤ (s : ℚ) := Nat.cast_nonneg s
  have hmm0 : (0 : ℚ) ≤ (mm : ℚ) := Nat.cast_nonneg mm
  have hq : ((3600000 * h + 60000 * m + 1000 * s + mm : ℕ) : ℚ)
      = 3600000 * (h : ℚ) + (60000 * (m : ℚ) + 1000 * (s : ℚ) + (mm : ℚ)) := by
    push_cast
    ring
  simp only [milliseconds_to_srt_time]
  rw [hq]
  have hfh : ⌊(3600000 * (h : ℚ) + (60000 * (m : ℚ) + 1000 * (s : ℚ) + (mm : ℚ))) / 3600000⌋
      = (h : ℤ) := by
    refine floor_mul_add_div 3600000 (by norm_num) h _ (by positivity) (by linarith)
  rw [hfh]
  have hr1 : 3600000 * (h : ℚ) + (60000 * (m : ℚ) + 1000 * (s : ℚ) + (mm : ℚ))
      - 3600000 * ((h : ℤ) : ℚ) = 60000 * (m : ℚ) + (1000 * (s : ℚ) + (mm : ℚ)) := by
    push_cast
    ring
  rw [hr1]
  have hfm : ⌊(60000 * (m : ℚ) + (1000 * (s : ℚ) + (mm : ℚ))) / 60000⌋ = (m : ℤ) := by
    refine floor_mul_add_div 60000 (by norm_num) m _ (by positivity) (by linarith)
  rw [hfm]
  have hr2 : 60000 * (m : ℚ) + (1000 * (s : ℚ) + (mm : ℚ)) - 60000 * ((m : ℤ) : ℚ)
      = 1000 * (s : ℚ) + (mm : ℚ) := by
    push_cast
    ring
  rw [hr2]
  have hfs : ⌊(1000 * (s : ℚ) + (mm : ℚ)) / 1000⌋ = (s : ℤ) := by
    refine floor_mul_add_div 1000 (by norm_num) s _ (by positivity) (by linarith)
  rw [hfs]
  have hr3 : 1000 * (s : ℚ) + (mm : ℚ) - 1000 * ((s : ℤ) : ℚ) = (mm : ℚ) := by
    push_cast
    ring
  rw [hr3, Int.floor_natCast]
  rw [padZero_two_eq h hh, padZero_two_eq m (by omega), padZero_two_eq s (by omega),
    padZero_three_eq mm hmm]

/-- C9. Each cue block is the index line, the
`HH:MM:SS,mmm --> HH:MM:SS,mmm` timing line with two-digit zero-padded
hours, minutes and seconds and three-digit milliseconds, the text line
and a blank separator, and the file is the concatenation of the blocks;
reproduced bit-for-bit on a concrete run. -/
theorem C9_srt_output_format :
    (∀ h m s mm : ℕ, h < 100 → m < 60 → s < 60 → mm < 1000 →
        milliseconds_to_srt_time ((3600000 * h + 60000 * m + 1000 * s + mm : ℕ) : ℚ)
          = twoDigit h ++ ":" ++ twoDigit m ++ ":" ++ twoDigit s ++ "," ++ threeDigit mm)
    ∧ (∀ segs : List SegOutcome,
        generate_srt segs = String.join ((generate_srt_cues 1 segs).map srtBlock))
    ∧ generate_srt [⟨0, 10000, 20000, [⟨1.5, 2, "hi"⟩]⟩]
        = "1\n00:00:11,500 --> 00:00:12,000\nhi\n\n" := by
  refine ⟨srt_time_digits, fun segs => rfl, ?_⟩
  have t1 : milliseconds_to_srt_time 11500 = "00:00:11,500" := by
    have h := srt_time_digits 0 0 11 500 (by norm_num) (by norm_num) (by norm_num) (by norm_num)
    rw [show ((3600000 * 0 + 60000 * 0 + 1000 * 11 + 500 : ℕ) : ℚ) = 11500 by norm_num] at h
    rw [h]
    decide
  have t2 : milliseconds_to_srt_time 12000 = "00:00:12,000" := by
    have h := srt_time_digits 0 0 12 0 (by norm_num) (by norm_num) (by norm_num) (by norm_num)
    rw [show ((3600000 * 0 + 60000 * 0 + 1000 * 12 + 0 : ℕ) : ℚ) = 12000 by norm_num] at h
    rw [h]
    decide
  rw [generate_srt, example_single_cue]
  simp only [List.map_cons, List.map_nil, srtBlock]
  rw [t1, t2]
  decide

/-- Witness for C9's timing-line format at `01:02:03,045`. -/
theorem C9_srt_output_format_witness :
    milliseconds_to_srt_time ((3600000 * 1 + 60000 * 2 + 1000 * 3 + 45 : ℕ) : ℚ)
      = twoDigit 1 ++ ":" ++ twoDigit 2 ++ ":" ++ twoDigit 3 ++ "," ++ threeDigit 45 :=
  C9_srt_output_format.1 1 2 3 45 (by decide) (by decide) (by decide) (by decide)

/-- Witness for C7: coverage of the point 5 inside `(0,10)`, and
disjointness at the nonnegative threshold 2. -/
theorem C7_coverage_and_disjointness_witness :
    covers (merge_speech_segments_from_tuples [((0 : ℚ), (10 : ℚ))] 2) 5
      ∧ (merge_speech_segments_from_tuples [((0 : ℚ), (10 : ℚ))] 2).Pairwise
          (fun p q => ¬ segOverlaps p q) :=
  ⟨C7_coverage_and_disjointness.1 [((0 : ℚ), (10 : ℚ))] 2 5 (0, 10)
      (List.mem_singleton.mpr rfl) (by decide) (by decide),
    C7_coverage_and_disjointness.2 [((0 : ℚ), (10 : ℚ))] 2 (by decide)⟩

/-- JSON text of one transcript entry, as `json.dump` renders the dict. -/
def serializeEntry (e : TranscriptEntry) : String :=
  "\x7b\"start\": " ++ toString e.start_sec ++ ", \"end\": " ++ toString e.end_sec
    ++ ", \"text\": \"" ++ e.text ++ "\"\x7d"

/-- JSON text of a whole Whisper result file; always non-empty. -/
def serializeTranscript (t : Transcript) : String :=
  "\x7b\"segments\": [" ++ String.intercalate ", " (t.map serializeEntry) ++ "]\x7d"

/-- Contents of a per-segment result file `segment_XXXX.json`: either a
valid transcript JSON or arbitrary other bytes. -/
inductive FileContent where
  | jsonOf (t : Transcript)
  | other (s : String)
deriving DecidableEq

/-- Size in bytes, as `os.path.getsize` reports it. -/
def FileContent.size : FileContent → ℕ
  | .jsonOf t => (serializeTranscript t).length
  | .other s => s.length

/-- The run directory: per-index result files (`segment_XXXX.json`) and
per-index slice files (`segment_XXXX.wav`, modelled by existence only). -/
structure FS where
  json : ℕ → Option FileContent
  wav : ℕ → Bool

/-- The marker check `check_segment_completed(segment_index, output_dir)`: the result file
exists and has size greater than zero. -/
def check_segment_completed (segment_index : ℕ) (fs : FS) : Bool :=
  match fs.json segment_index with
  | some c => decide (0 < c.size)
  | none => false

/-- The loader `load_existing_result(segment_index, output_dir)`: parse the result
file; any read/parse failure falls back to `{'segments': []}`. -/
def load_existing_result (segment_index : ℕ) (fs : FS) : Transcript :=
  match fs.json segment_index with
  | some (.jsonOf t) => t
  | _ => []

/-- Externally observable side effects of the driver: an ffmpeg slice
call, a whisper invocation (with its 0-based attempt number), or a
`time.sleep` delay in seconds. -/
inductive Event where
  | sliceCall (i : ℕ)
  | engineCall (i : ℕ) (attempt : ℕ)
  | sleepSec (n : ℕ)
deriving DecidableEq

/-- The segment index an event belongs to, if any. -/
def Event.segIdx : Event → Option ℕ
  | .sliceCall i => some i
  | .engineCall i _ => some i
  | .sleepSec _ => none

def Event.isEngineCall : Event → Bool
  | .engineCall _ _ => true
  | _ => false

def Event.isSleep : Event → Bool
  | .sleepSec _ => true
  | _ => false

/-- The transcription engine as an oracle: segment index and attempt
number determine success (`some` transcript) or failure (`none`, i.e. a
process error or missing/unreadable output). -/
abbrev Engine := ℕ → ℕ → Option Transcript

/-- The `for attempt in range(max_retries)` loop of
`transcribe_with_whisper`: on success whisper writes (and the code
rewrites) the segment's JSON file and the result is returned; on failure
nothing is written, a 5-second sleep separates consecutive attempts
(`attempt < max_retries - 1`), and exhaustion returns the empty
transcript `{'segments': []}` with the store untouched. -/
def whisperAttempts (engine : Engine) (max_retries i : ℕ) :
    List ℕ → FS → Transcript × FS × List Event
  | [], fs => ([], fs, [])
  | a :: rest, fs =>
    match engine i a with
    | some t =>
      (t, { fs with json := fun j => if j = i then some (.jsonOf t) else fs.json j },
        [.engineCall i a])
    | none =>
      let tail := whisperAttempts engine max_retries i rest fs
      (tail.1, tail.2.1,
        Event.engineCall i a ::
          ((if a < max_retries - 1 then [Event.sleepSec 5] else []) ++ tail.2.2))

/-- The call `transcribe_with_whisper` on segment `i`: run the attempt loop. -/
def transcribe_with_whisper (engine : Engine) (i : ℕ) (fs : FS)
    (max_retries : ℕ) : Transcript × FS × List Event :=
  whisperAttempts engine max_retries i (List.range max_retries) fs

/-- The source's default for `max_retries`. -/
def defaultMaxRetries : ℕ := 3

/-- Driver state while iterating `enumerate(continuous_segments)`. -/
structure DState where
  fs : FS
  events : List Event
  all_segments : List SegOutcome
  completed_count : ℕ
  skipped_count : ℕ
  failed_count : ℕ

/-- One iteration of the main loop for `(i, (start_ms, end_ms))`: if the
segment is checkpointed, load the stored result and count it skipped —
no slicing, no transcription; otherwise slice unless the `.wav` already
exists, transcribe with retries, and count completed or failed by
whether the returned `segments` list is non-empty. -/
def processSegment (engine : Engine) (mr : ℕ) (st : DState) (p : ℕ × Seg) : DState :=
  let i := p.1
  let start_ms := p.2.1
  let end_ms := p.2.2
  if check_segment_completed i st.fs then
    { st with
      all_segments := st.all_segments
        ++ [⟨i, start_ms, end_ms, load_existing_result i st.fs⟩],
      skipped_count := st.skipped_count + 1 }
  else
    let sliced : FS × List Event :=
      if st.fs.wav i then (st.fs, [])
      else ({ st.fs with wav := fun j => if j = i then true else st.fs.wav j },
        [Event.sliceCall i])
    let r := transcribe_with_whisper engine i sliced.1 mr
    { fs := r.2.1,
      events := st.events ++ sliced.2 ++ r.2.2,
      all_segments := st.all_segments ++ [⟨i, start_ms, end_ms, r.1⟩],
      completed_count := st.completed_count + (if r.1.isEmpty then 0 else 1),
      skipped_count := st.skipped_count,
      failed_count := st.failed_count + (if r.1.isEmpty then 1 else 0) }

/-- Fresh driver state over a run directory. -/
def initState (fs0 : FS) : DState := ⟨fs0, [], [], 0, 0, 0⟩

/-- Fold the main loop over an indexed segment list. -/
def runFrom (engine : Engine) (mr : ℕ) (st : DState) (l : List (ℕ × Seg)) : DState :=
  l.foldl (processSegment engine mr) st

/-- The whole main loop over `enumerate(continuous_segments)`. -/
def runDriver (engine : Engine) (mr : ℕ) (segs : List Seg) (fs0 : FS) : DState :=
  runFrom engine mr (initState fs0) segs.enum

/-- The driver state after the first `n` iterations: the state in which
the driver reaches segment index `n`. -/
def runUpTo (engine : Engine) (mr : ℕ) (segs : List Seg) (fs0 : FS) (n : ℕ) : DState :=
  runFrom engine mr (initState fs0) (segs.enum.take n)

/-- The failure trace of the attempt loop: one engine call per attempt,
a 5-second sleep after every attempt but the last. -/
def failTrace (i mr : ℕ) (as : List ℕ) : List Event :=
  as.flatMap (fun a =>
    Event.engineCall i a :: (if a < mr - 1 then [Event.sleepSec 5] else []))

/-- When the engine fails on every attempt, the loop returns the empty
transcript, leaves the store untouched, and its events are exactly the
failure trace. -/
theorem whisperAttempts_allFail (engine : Engine) (mr i : ℕ)
    (hf : ∀ a, engine i a = none) :
    ∀ (as : List ℕ) (fs : FS),
      whisperAttempts engine mr i as fs = ([], fs, failTrace i mr as) := by
  intro as
  induction as with
  | nil => intro fs; rfl
  | cons a rest ih =>
    intro fs
    simp only [whisperAttempts, hf a, ih fs, failTrace, List.flatMap_cons]
    rfl

/-- Engine calls in the failure trace: one per attempt. -/
theorem failTrace_countP_engine (i mr : ℕ) :
    ∀ as : List ℕ, (failTrace i mr as).countP Event.isEngineCall = as.length := by
  intro as
  induction as with
  | nil => rfl
  | cons a rest ih =>
    by_cases h : a < mr - 1 <;>
      simp [failTrace, List.flatMap_cons, List.countP_append, List.countP_cons,
        Event.isEngineCall, Event.isSleep, h] at ih ⊢ <;> omega

/-- Sleeps in the failure trace: one per attempt that is not the last. -/
theorem failTrace_countP_sleep (i mr : ℕ) :
    ∀ as : List ℕ,
      (failTrace i mr as).countP Event.isSleep
        = as.countP (fun a => decide (a < mr - 1)) := by
  intro as
  induction as with
  | nil => rfl
  | cons a rest ih =>
    by_cases h : a < mr - 1 <;>
      simp [failTrace, List.flatMap_cons, List.countP_append, List.countP_cons,
        Event.isEngineCall, Event.isSleep, h] at ih ⊢ <;> omega

/-- Of the attempts `0, …, mr-1`, all but the last satisfy
`a < mr - 1`. -/
theorem range_countP_lt_pred (mr : ℕ) :
    (List.range mr).countP (fun a => decide (a < mr - 1)) = mr - 1 := by
  cases mr with
  | zero => rfl
  | succ n =>
    rw [List.range_succ, List.countP_append]
    have h1 : (List.range n).countP (fun a => decide (a < (n + 1) - 1)) = n := by
      have : ∀ a ∈ List.range n, (fun a => decide (a < (n + 1) - 1)) a = true := by
        intro a ha
        simp only [Nat.add_sub_cancel, decide_eq_true_eq]
        exact List.mem_range.mp ha
      rw [List.countP_eq_length.mpr this, List.length_range]
    rw [h1]
    simp

/-- Every event of the attempt loop belongs to segment `i` or is a
sleep. -/
theorem whisperAttempts_events_idx (engine : Engine) (mr i : ℕ) :
    ∀ (as : List ℕ) (fs : FS) (e : Event),
      e ∈ (whisperAttempts engine mr i as fs).2.2 →
        e.segIdx = some i ∨ e = Event.sleepSec 5 := by
  intro as
  induction as with
  | nil => intro fs e he; simp [whisperAttempts] at he
  | cons a rest ih =>
    intro fs e he
    cases hr : engine i a with
    | some t =>
      simp only [whisperAttempts, hr] at he
      rcases List.mem_singleton.mp he with rfl
      exact Or.inl rfl
    | none =>
      simp only [whisperAttempts, hr] at he
      rcases List.mem_cons.mp he with rfl | he'
      · exact Or.inl rfl
      · rcases List.mem_append.mp he' with hs | ht
        · by_cases h : a < mr - 1
          · rw [if_pos h] at hs
            rcases List.mem_singleton.mp hs with rfl
            exact Or.inr rfl
          · rw [if_neg h] at hs
            simp at hs
        · exact ih fs e ht

/-- Each loop iteration appends one outcome. -/
theorem processSegment_outcomes_len (engine : Engine) (mr : ℕ) (st : DState)
    (p : ℕ × Seg) :
    (processSegment engine mr st p).all_segments.length
      = st.all_segments.length + 1 := by
  by_cases h : check_segment_completed p.1 st.fs <;> simp [processSegment, h]

/-- Each loop iteration only appends events, all belonging to the
processed index or sleeps. -/
theorem processSegment_events (engine : Engine) (mr : ℕ) (st : DState) (p : ℕ × Seg) :
    ∃ new, (processSegment engine mr st p).events = st.events ++ new
      ∧ ∀ e ∈ new, e.segIdx = some p.1 ∨ e = Event.sleepSec 5 := by
  by_cases h : check_segment_completed p.1 st.fs
  · exact ⟨[], by simp [processSegment, h], by simp⟩
  · by_cases hw : st.fs.wav p.1
    · refine ⟨(transcribe_with_whisper engine p.1 st.fs mr).2.2, ?_, ?_⟩
      · simp [processSegment, h, hw]
      · intro e he
        exact whisperAttempts_events_idx engine mr p.1 _ _ e he
    · refine ⟨Event.sliceCall p.1 ::
        (transcribe_with_whisper engine p.1
          { st.fs with wav := fun j => if j = p.1 then true else st.fs.wav j } mr).2.2,
        ?_, ?_⟩
      · simp [processSegment, h, hw]
      · intro e he
        rcases List.mem_cons.mp he with rfl | he'
        · exact Or.inl rfl
        · exact whisperAttempts_events_idx engine mr p.1 _ _ e he'

/-- A checkpointed segment is skipped: its stored transcript is loaded,
the skip counter advances, and nothing else changes. -/
theorem processSegment_skip (engine : Engine) (mr : ℕ) (st : DState) (i : ℕ) (s : Seg)
    (h : check_segment_completed i st.fs = true) :
    processSegment engine mr st (i, s)
      = { st with
          all_segments := st.all_segments
            ++ [⟨i, s.1, s.2, load_existing_result i st.fs⟩],
          skipped_count := st.skipped_count + 1 } := by
  simp [processSegment, h]

/-- Advancing the driver one step within bounds. -/
theorem runUpTo_succ (engine : Engine) (mr : ℕ) (segs : List Seg) (fs0 : FS)
    (n : ℕ) (s : Seg) (hs : segs[n]? = some s) :
    runUpTo engine mr segs fs0 (n + 1)
      = processSegment engine mr (runUpTo engine mr segs fs0 n) (n, s) := by
  unfold runUpTo runFrom
  rw [List.take_succ]
  have he : segs.enum[n]? = some (n, s) := by
    simp [List.getElem?_enum, hs]
  rw [he]
  simp [List.foldl_append]

/-- Beyond the segment list the driver state is frozen. -/
theorem runUpTo_past (engine : Engine) (mr : ℕ) (segs : List Seg) (fs0 : FS)
    (n : ℕ) (hn : segs.length ≤ n) :
    runUpTo engine mr segs fs0 n = runDriver engine mr segs fs0 := by
  unfold runUpTo runDriver runFrom
  rw [List.take_of_length_le (by simpa using hn)]

/-- The full run is the run up to the number of segments. -/
theorem runUpTo_length_eq (engine : Engine) (mr : ℕ) (segs : List Seg) (fs0 : FS) :
    runUpTo engine mr segs fs0 segs.length = runDriver engine mr segs fs0 :=
  runUpTo_past engine mr segs fs0 segs.length le_rfl

/-- Events only accumulate along the run. -/
theorem runFrom_events_extend (engine : Engine) (mr : ℕ) :
    ∀ (l : List (ℕ × Seg)) (st : DState),
      ∃ new, (runFrom engine mr st l).events = st.events ++ new := by
  intro l
  induction l with
  | nil => intro st; exact ⟨[], by simp [runFrom]⟩
  | cons p rest ih =>
    intro st
    obtain ⟨n1, h1, _⟩ := processSegment_events engine mr st p
    obtain ⟨n2, h2⟩ := ih (processSegment engine mr st p)
    exact ⟨n1 ++ n2, by
      show (runFrom engine mr (processSegment engine mr st p) rest).events = _
      rw [h2, h1, List.append_assoc]⟩

/-- Splitting the full run at step `n`. -/
theorem runDriver_decompose (engine : Engine) (mr : ℕ) (segs : List Seg) (fs0 : FS)
    (n : ℕ) :
    runDriver engine mr segs fs0
      = runFrom engine mr (runUpTo engine mr segs fs0 n) (segs.enum.drop n) := by
  unfold runDriver runUpTo runFrom
  rw [← List.foldl_append, List.take_append_drop]

/-- If the driver reaches index `i` with its checkpoint set, no event of
the whole run ever belongs to segment `i`. -/
theorem run_events_avoid (engine : Engine) (mr : ℕ) (segs : List Seg) (fs0 : FS)
    (i : ℕ)
    (hskip : check_segment_completed i (runUpTo engine mr segs fs0 i).fs = true) :
    ∀ n, ∀ e ∈ (runUpTo engine mr segs fs0 n).events, e.segIdx ≠ some i := by
  intro n
  induction n with
  | zero => intro e he; simp [runUpTo, runFrom, initState] at he
  | succ n ih =>
    intro e he
    cases hs : segs[n]? with
    | none =>
      have hn : segs.length ≤ n := by
        by_contra hlt
        rw [List.getElem?_eq_getElem (Nat.lt_of_not_le hlt)] at hs
        exact Option.noConfusion hs
      have : runUpTo engine mr segs fs0 (n + 1) = runUpTo engine mr segs fs0 n := by
        rw [runUpTo_past engine mr segs fs0 n hn,
          runUpTo_past engine mr segs fs0 (n + 1) (Nat.le_succ_of_le hn)]
      rw [this] at he
      exact ih e he
    | some s =>
      rw [runUpTo_succ engine mr segs fs0 n s hs] at he
      by_cases hni : n = i
      · subst hni
        rw [processSegment_skip engine mr _ n s hskip] at he
        simp only at he
        exact ih e he
      · obtain ⟨new, hnew, hidx⟩ :=
          processSegment_events engine mr (runUpTo engine mr segs fs0 n) (n, s)
        rw [hnew] at he
        rcases List.mem_append.mp he with h1 | h2
        · exact ih e h1
        · rcases hidx e h2 with hh | hh
          · rw [hh]
            intro hc
            exact hni (Option.some.injEq _ _ ▸ hc ▸ rfl)
          · rw [hh]
            simp [Event.segIdx]

/-- C2. The completion marker is true iff the per-index result file
exists with positive size; and whenever the driver reaches index `i`
with the marker set, it appends the loaded persisted transcript as that
segment's outcome, increments only the skip counter, and no slicer or
engine event of the entire run ever belongs to segment `i`. -/
theorem C2_checkpointed_segment_skipped :
    (∀ (i : ℕ) (fs : FS),
        check_segment_completed i fs = true ↔ ∃ c, fs.json i = some c ∧ 0 < c.size)
    ∧ (∀ (engine : Engine) (mr : ℕ) (segs : List Seg) (fs0 : FS) (i : ℕ) (s : Seg),
        segs[i]? = some s →
        check_segment_completed i (runUpTo engine mr segs fs0 i).fs = true →
        (∀ e ∈ (runDriver engine mr segs fs0).events, e.segIdx ≠ some i)
          ∧ runUpTo engine mr segs fs0 (i + 1)
              = { runUpTo engine mr segs fs0 i with
                  all_segments := (runUpTo engine mr segs fs0 i).all_segments
                    ++ [⟨i, s.1, s.2,
                          load_existing_result i (runUpTo engine mr segs fs0 i).fs⟩],
                  skipped_count := (runUpTo engine mr segs fs0 i).skipped_count + 1 }) := by
  constructor
  · intro i fs
    unfold check_segment_completed
    cases h : fs.json i with
    | none =>
      simp
    | some c =>
      simp [h]
  · intro engine mr segs fs0 i s hs hskip
    constructor
    · intro e he
      rw [← runUpTo_length_eq] at he
      exact run_events_avoid engine mr segs fs0 i hskip segs.length e he
    · rw [runUpTo_succ engine mr segs fs0 i s hs]
      exact processSegment_skip engine mr _ i s hskip

/-- The always-failing engine used in the concrete scenarios. -/
def cexEngine : Engine := fun _ _ => none

/-- A store whose result file for index 0 exists with non-empty,
unparseable content. -/
def wFS : FS := ⟨fun j => if j = 0 then some (.other "x") else none, fun _ => false⟩

/-- Witness for C2: with index 0 checkpointed, the run emits no event for
segment 0 and counts exactly one skip. -/
theorem C2_checkpointed_segment_skipped_witness :
    (check_segment_completed 0 wFS = true ↔ ∃ c, wFS.json 0 = some c ∧ 0 < c.size)
      ∧ (∀ e ∈ (runDriver cexEngine 3 [((0 : ℚ), (1000 : ℚ))] wFS).events,
          e.segIdx ≠ some 0)
      ∧ runUpTo cexEngine 3 [((0 : ℚ), (1000 : ℚ))] wFS 1
          = { runUpTo cexEngine 3 [((0 : ℚ), (1000 : ℚ))] wFS 0 with
              all_segments := (runUpTo cexEngine 3 [((0 : ℚ), (1000 : ℚ))] wFS 0).all_segments
                ++ [⟨0, 0, 1000,
                      load_existing_result 0
                        (runUpTo cexEngine 3 [((0 : ℚ), (1000 : ℚ))] wFS 0).fs⟩],
              skipped_count :=
                (runUpTo cexEngine 3 [((0 : ℚ), (1000 : ℚ))] wFS 0).skipped_count + 1 } :=
  ⟨C2_checkpointed_segment_skipped.1 0 wFS,
    (C2_checkpointed_segment_skipped.2 cexEngine 3 [((0 : ℚ), (1000 : ℚ))] wFS 0
        ((0 : ℚ), (1000 : ℚ)) (by decide) (by decide)).1,
    (C2_checkpointed_segment_skipped.2 cexEngine 3 [((0 : ℚ), (1000 : ℚ))] wFS 0
        ((0 : ℚ), (1000 : ℚ)) (by decide) (by decide)).2⟩

/-- The driver produces exactly one outcome per indexed segment. -/
theorem runFrom_outcomes_len (engine : Engine) (mr : ℕ) :
    ∀ (l : List (ℕ × Seg)) (st : DState),
      (runFrom engine mr st l).all_segments.length
        = st.all_segments.length + l.length := by
  intro l
  induction l with
  | nil => intro st; simp [runFrom]
  | cons p rest ih =>
    intro st
    show (runFrom engine mr (processSegment engine mr st p) rest).all_segments.length = _
    rw [ih, processSegment_outcomes_len]
    simp
    omega

/-- C3. With an engine that fails on every attempt for a segment,
the attempt loop calls the engine exactly `max_retries` times with a
5-second sleep between consecutive attempts (`max_retries - 1` sleeps),
returns the empty transcript and leaves the store untouched; the default
bound is 3; and regardless of outcomes the driver emits one outcome per
segment — a failing segment only increments the failure counter and
contributes an empty transcript, and the run continues. -/
theorem C3_retry_exhaustion :
    (∀ (engine : Engine) (i : ℕ) (fs : FS) (mr : ℕ), (∀ a, engine i a = none) →
        transcribe_with_whisper engine i fs mr = ([], fs, failTrace i mr (List.range mr))
          ∧ (transcribe_with_whisper engine i fs mr).2.2.countP Event.isEngineCall = mr
          ∧ (transcribe_with_whisper engine i fs mr).2.2.countP Event.isSleep = mr - 1)
    ∧ defaultMaxRetries = 3
    ∧ (∀ (engine : Engine) (i : ℕ) (fs : FS), (∀ a, engine i a = none) →
        (transcribe_with_whisper engine i fs defaultMaxRetries).2.2.countP
          Event.isEngineCall = 3)
    ∧ (∀ (engine : Engine) (mr : ℕ) (segs : List Seg) (fs0 : FS),
        (runDriver engine mr segs fs0).all_segments.length = segs.length)
    ∧ (∀ (engine : Engine) (mr : ℕ) (st : DState) (i : ℕ) (s : Seg),
        (∀ a, engine i a = none) → check_segment_completed i st.fs = false →
          (processSegment engine mr st (i, s)).failed_count = st.failed_count + 1
            ∧ (processSegment engine mr st (i, s)).all_segments
                = st.all_segments ++ [⟨i, s.1, s.2, []⟩]) := by
  have hmain : ∀ (engine : Engine) (i : ℕ) (fs : FS) (mr : ℕ), (∀ a, engine i a = none) →
      transcribe_with_whisper engine i fs mr
        = ([], fs, failTrace i mr (List.range mr)) := by
    intro engine i fs mr hf
    unfold transcribe_with_whisper
    exact whisperAttempts_allFail engine mr i hf (List.range mr) fs
  refine ⟨?_, rfl, ?_, ?_, ?_⟩
  · intro engine i fs mr hf
    refine ⟨hmain engine i fs mr hf, ?_, ?_⟩
    · rw [hmain engine i fs mr hf]
      show (failTrace i mr (List.range mr)).countP Event.isEngineCall = mr
      rw [failTrace_countP_engine, List.length_range]
    · rw [hmain engine i fs mr hf]
      show (failTrace i mr (List.range mr)).countP Event.isSleep = mr - 1
      rw [failTrace_countP_sleep, range_countP_lt_pred]
  · intro engine i fs hf
    rw [hmain engine i fs defaultMaxRetries hf]
    show (failTrace i defaultMaxRetries (List.range defaultMaxRetries)).countP
      Event.isEngineCall = 3
    rw [failTrace_countP_engine, List.length_range]
    rfl
  · intro engine mr segs fs0
    unfold runDriver
    rw [runFrom_outcomes_len]
    simp [initState]
  · intro engine mr st i s hf hc
    have hr := hmain engine i
    constructor
    · by_cases hw : st.fs.wav i <;>
        simp [processSegment, hc, hw, hr _ mr hf]
    · by_cases hw : st.fs.wav i <;>
        simp [processSegment, hc, hw, hr _ mr hf]

/-- An empty run directory: no result files, no slices. -/
def cexFS : FS := ⟨fun _ => none, fun _ => false⟩

/-- Witness for C3 with the always-failing engine at the default bound. -/
theorem C3_retry_exhaustion_witness :
    transcribe_with_whisper cexEngine 0 cexFS 3
        = ([], cexFS, failTrace 0 3 (List.range 3))
      ∧ (transcribe_with_whisper cexEngine 0 cexFS defaultMaxRetries).2.2.countP
          Event.isEngineCall = 3
      ∧ (runDriver cexEngine 3 [((0 : ℚ), (1000 : ℚ))] cexFS).all_segments.length = 1
      ∧ (processSegment cexEngine 3 (initState cexFS)
          (0, ((0 : ℚ), (1000 : ℚ)))).failed_count = (initState cexFS).failed_count + 1 :=
  ⟨(C3_retry_exhaustion.1 cexEngine 0 cexFS 3 (fun _ => rfl)).1,
    C3_retry_exhaustion.2.2.1 cexEngine 0 cexFS (fun _ => rfl),
    C3_retry_exhaustion.2.2.2.1 cexEngine 3 [((0 : ℚ), (1000 : ℚ))] cexFS,
    (C3_retry_exhaustion.2.2.2.2 cexEngine 3 (initState cexFS) 0 ((0 : ℚ), (1000 : ℚ))
        (fun _ => rfl) (by decide)).1⟩

/-- The attempt loop for segment `j` never touches another segment's
result file. -/
theorem whisperAttempts_json_other (engine : Engine) (mr j i : ℕ) (hne : i ≠ j) :
    ∀ (as : List ℕ) (fs : FS),
      (whisperAttempts engine mr j as fs).2.1.json i = fs.json i := by
  intro as
  induction as with
  | nil => intro fs; rfl
  | cons a rest ih =>
    intro fs
    cases hr : engine j a with
    | some t =>
      simp only [whisperAttempts, hr]
      simp [if_neg hne]
    | none =>
      simp only [whisperAttempts, hr]
      exact ih fs

/-- If the engine always fails on segment `i`, no iteration of the main
loop ever changes segment `i`'s result file. -/
theorem processSegment_json_preserved (engine : Engine) (mr : ℕ) (i : ℕ)
    (hf : ∀ a, engine i a = none) (st : DState) (p : ℕ × Seg) :
    (processSegment engine mr st p).fs.json i = st.fs.json i := by
  by_cases hc : check_segment_completed p.1 st.fs
  · simp [processSegment, hc]
  · by_cases hj : p.1 = i
    · subst hj
      by_cases hw : st.fs.wav p.1 <;>
        simp [processSegment, hc, hw, transcribe_with_whisper,
          whisperAttempts_allFail engine mr p.1 hf]
    · have hne : i ≠ p.1 := fun h => hj h.symm
      by_cases hw : st.fs.wav p.1 <;>
        simp [processSegment, hc, hw, transcribe_with_whisper,
          whisperAttempts_json_other engine mr p.1 i hne]

/-- Along any run with an engine that always fails on segment `i`,
segment `i`'s result file never changes. -/
theorem run_json_preserved (engine : Engine) (mr : ℕ) (segs : List Seg) (fs0 : FS)
    (i : ℕ) (hf : ∀ a, engine i a = none) :
    ∀ n, (runUpTo engine mr segs fs0 n).fs.json i = fs0.json i := by
  intro n
  induction n with
  | zero => rfl
  | succ n ih =>
    cases hs : segs[n]? with
    | none =>
      have hn : segs.length ≤ n := by
        by_contra hlt
        rw [List.getElem?_eq_getElem (Nat.lt_of_not_le hlt)] at hs
        exact Option.noConfusion hs
      rw [runUpTo_past engine mr segs fs0 (n + 1) (Nat.le_succ_of_le hn),
        ← runUpTo_past engine mr segs fs0 n hn]
      exact ih
    | some s =>
      rw [runUpTo_succ engine mr segs fs0 n s hs,
        processSegment_json_preserved engine mr i hf]
      exact ih

/-- The completion check only looks at the segment's result file. -/
theorem check_segment_completed_congr (i : ℕ) (fs fs' : FS)
    (h : fs.json i = fs'.json i) :
    check_segment_completed i fs = check_segment_completed i fs' := by
  unfold check_segment_completed
  rw [h]

/-- The single-segment run against an empty store with the always-failing
engine. -/
def cexRun1 : DState := runDriver cexEngine 3 [((0 : ℚ), (1000 : ℚ))] cexFS

/-- A second run of the same pipeline over the store the first run left
behind. -/
def cexRun2 : DState := runDriver cexEngine 3 [((0 : ℚ), (1000 : ℚ))] cexRun1.fs

/-- Counterexample to claim C10 as stated: after the first run exhausts
its retries, segment 0's completion check is indeed still false and the
second run does transcribe again — but it does *not* slice again,
because the slice file written by the first run is reused. -/
theorem C10_reslice_counterexample :
    check_segment_completed 0 cexRun1.fs = false
      ∧ Event.engineCall 0 0 ∈ cexRun2.events
      ∧ Event.sliceCall 0 ∉ cexRun2.events := by decide

/-- C10 (amended). When transcription for segment `i` exhausts all
retries, nothing is persisted for `i`: the call returns the empty
transcript and leaves the store untouched, so the completion check for
`i` after a whole such run equals what it was before, and a run whose
initial store reports `i` incomplete re-attempts `i` — it invokes the
engine again (the full retry trace), counts the failure, is not counted
skipped, and re-slices exactly when the slice file is absent (the
original claim's assertion that a subsequent run always slices again
fails, see the counterexample: an existing slice is reused). -/
theorem C10_failure_not_persisted :
    (∀ (engine : Engine) (i : ℕ) (fs : FS) (mr : ℕ), (∀ a, engine i a = none) →
        (transcribe_with_whisper engine i fs mr).1 = []
          ∧ (transcribe_with_whisper engine i fs mr).2.1 = fs)
    ∧ (∀ (engine : Engine) (mr : ℕ) (segs : List Seg) (fs0 : FS) (i : ℕ),
        (∀ a, engine i a = none) →
        check_segment_completed i (runDriver engine mr segs fs0).fs
          = check_segment_completed i fs0)
    ∧ (∀ (engine : Engine) (mr : ℕ) (segs : List Seg) (fs0 : FS) (i : ℕ) (s : Seg),
        (∀ a, engine i a = none) →
        check_segment_completed i fs0 = false →
        segs[i]? = some s →
        (runUpTo engine mr segs fs0 (i + 1)).events
            = (runUpTo engine mr segs fs0 i).events
              ++ ((if (runUpTo engine mr segs fs0 i).fs.wav i then []
                    else [Event.sliceCall i])
                  ++ failTrace i mr (List.range mr))
          ∧ (runUpTo engine mr segs fs0 (i + 1)).all_segments
              = (runUpTo engine mr segs fs0 i).all_segments ++ [⟨i, s.1, s.2, []⟩]
          ∧ (runUpTo engine mr segs fs0 (i + 1)).skipped_count
              = (runUpTo engine mr segs fs0 i).skipped_count
          ∧ (runUpTo engine mr segs fs0 (i + 1)).failed_count
              = (runUpTo engine mr segs fs0 i).failed_count + 1) := by
  have hmain : ∀ (engine : Engine) (i : ℕ) (fs : FS) (mr : ℕ),
      (∀ a, engine i a = none) →
      transcribe_with_whisper engine i fs mr
        = ([], fs, failTrace i mr (List.range mr)) := by
    intro engine i fs mr hf
    exact whisperAttempts_allFail engine mr i hf (List.range mr) fs
  refine ⟨?_, ?_, ?_⟩
  · intro engine i fs mr hf
    rw [hmain engine i fs mr hf]
    exact ⟨rfl, rfl⟩
  · intro engine mr segs fs0 i hf
    rw [← runUpTo_length_eq]
    exact check_segment_completed_congr i _ fs0
      (run_json_preserved engine mr segs fs0 i hf segs.length)
  · intro engine mr segs fs0 i s hf hc hs
    have hcheck : check_segment_completed i (runUpTo engine mr segs fs0 i).fs = false := by
      rw [check_segment_completed_congr i _ fs0
        (run_json_preserved engine mr segs fs0 i hf i)]
      exact hc
    rw [runUpTo_succ engine mr segs fs0 i s hs]
    by_cases hw : (runUpTo engine mr segs fs0 i).fs.wav i <;>
      refine ⟨?_, ?_, ?_, ?_⟩ <;>
        simp [processSegment, hcheck, hw, hmain engine i _ mr hf]

/-- Witness for C10 at the concrete empty-store, always-failing run. -/
theorem C10_failure_not_persisted_witness :
    (transcribe_with_whisper cexEngine 0 cexFS 3).2.1 = cexFS
      ∧ check_segment_completed 0 (runDriver cexEngine 3 [((0 : ℚ), (1000 : ℚ))] cexFS).fs
          = check_segment_completed 0 cexFS
      ∧ (runUpTo cexEngine 3 [((0 : ℚ), (1000 : ℚ))] cexFS 1).failed_count
          = (runUpTo cexEngine 3 [((0 : ℚ), (1000 : ℚ))] cexFS 0).failed_count + 1 :=
  ⟨(C10_failure_not_persisted.1 cexEngine 0 cexFS 3 (fun _ => rfl)).2,
    C10_failure_not_persisted.2.1 cexEngine 3 [((0 : ℚ), (1000 : ℚ))] cexFS 0
      (fun _ => rfl),
    (C10_failure_not_persisted.2.2 cexEngine 3 [((0 : ℚ), (1000 : ℚ))] cexFS 0
        ((0 : ℚ), (1000 : ℚ)) (fun _ => rfl) (by decide) (by decide)).2.2.2⟩
